import Mathlib

/-!
Shallow embedding of the pmx profile manager core: the name validator
(src/commands/profile.rs), the storage layer (src/storage.rs), the MCP prompt
server (src/commands/mcp.rs) and the config decoding (src/storage.rs).
Strings are modelled as lists of Unicode scalar values (Lean Char = Rust char);
byte-oriented operations account for UTF-8 sizes explicitly.  All definitions
come first, the theorems follow.
-/

set_option maxRecDepth 8000

namespace Pmx

/-! ## Character classes (Rust char predicates) -/

/-- Rust char::is_control: Unicode general category Cc,
i.e. U+0000..U+001F, U+007F, U+0080..U+009F. -/
def rustIsControl (c : Char) : Bool :=
  c.val < 0x20 || c.val == 0x7F || (0x7F < c.val && c.val < 0xA0)

/-- Rust char::is_whitespace: Unicode White_Space property. -/
def rustIsWhitespace (c : Char) : Bool :=
  (0x9 ≤ c.val && c.val ≤ 0xD) || c.val == 0x20 || c.val == 0x85 ||
  c.val == 0xA0 || c.val == 0x1680 || (0x2000 ≤ c.val && c.val ≤ 0x200A) ||
  c.val == 0x2028 || c.val == 0x2029 || c.val == 0x202F || c.val == 0x205F ||
  c.val == 0x3000

/-! ## List-of-char utilities mirroring Rust str operations -/

/-- UTF-8 byte length of a string, as Rust str::len computes it. -/
def utf8Len (l : List Char) : Nat :=
  (l.map Char.utf8Size).sum

/-- Whether the pattern occurs as a contiguous substring (Rust str::contains). -/
def hasSub (pat : List Char) : List Char → Bool
  | [] => pat.isEmpty
  | c :: rest => pat.isPrefixOf (c :: rest) || hasSub pat rest

/-- Rust str::split(sep) semantics: splitting the empty string yields one
empty piece; separators at the ends yield empty pieces. -/
def splitOnChar (sep : Char) : List Char → List (List Char)
  | [] => [[]]
  | c :: rest =>
    match splitOnChar sep rest with
    | [] => [[]]
    | h :: t => if c = sep then [] :: h :: t else (c :: h) :: t

/-- Rust str::trim (both ends, Unicode whitespace). -/
def rustTrim (l : List Char) : List Char :=
  ((l.dropWhile rustIsWhitespace).reverse.dropWhile rustIsWhitespace).reverse

/-- Rust str::lines: split on newline terminators; a trailing newline does not
produce a final empty line; a trailing CR of each line is removed. -/
def rustLines (l : List Char) : List (List Char) :=
  let parts := splitOnChar '\n' l
  let parts := if parts.getLastD [] = [] then parts.dropLast else parts
  parts.map (fun line => if line.getLastD ' ' = '\r' then line.dropLast else line)

/-! ## NameValidator: validate_profile_name (src/commands/profile.rs, 175-213)

Each rejecting branch of the Rust function becomes one if-branch.  Rust
name.len() is the UTF-8 byte length.  The per-component loop runs only under
the name.contains('/') guard, exactly as in the source. -/

def invalidChars : List Char := ['<', '>', ':', '"', '|', '?', '*']

def badComponent (comp : List Char) : Bool :=
  comp.isEmpty || comp = ['.'] || comp = ['.', '.']

def badChar (c : Char) : Bool :=
  invalidChars.contains c || rustIsControl c

def validate_profile_name (name : String) : Bool :=
  if name.toList.isEmpty then false
  else if decide (255 < utf8Len name.toList) then false
  else if hasSub ['.', '.'] name.toList || name.toList.contains '\\' then false
  else if name.toList.contains '/' &&
      (splitOnChar '/' name.toList).any badComponent then false
  else if name.toList.any badChar then false
  else true

/-- The acceptance rules exactly as the claim words them: non-empty, at most
255 code points, no dotdot substring, no backslash, no bad component after
splitting on slash (unconditionally), no invalid or control character. -/
def validNameClaim (name : String) : Bool :=
  (!name.toList.isEmpty) && name.toList.length ≤ 255 &&
  (!hasSub ['.', '.'] name.toList) && (!name.toList.contains '\\') &&
  (!(splitOnChar '/' name.toList).any badComponent) &&
  (!name.toList.any badChar)

/-- The acceptance rules with the two deviations the code actually has:
the length limit counts UTF-8 bytes, and the component rules apply only
when the name contains a slash. -/
def validNameAmended (name : String) : Bool :=
  (!name.toList.isEmpty) && decide (utf8Len name.toList ≤ 255) &&
  (!hasSub ['.', '.'] name.toList) && (!name.toList.contains '\\') &&
  (!(name.toList.contains '/' && (splitOnChar '/' name.toList).any badComponent)) &&
  (!name.toList.any badChar)

/-- A name of 128 two-byte code points: 128 code points but 256 UTF-8 bytes. -/
def eAcute128 : String := String.mk (List.replicate 128 'é')

/-! ## Path resolution: Storage::get_repo_path (src/storage.rs, 169-173)

get_repo_path computes self.path.join("repo").join(format!("{}.md", name)) and
only checks that the resulting path exists; create_profile/profile_exists
build the same path.  No name validation happens in storage.rs, and the MCP
get_prompt handler (src/commands/mcp.rs, 129-153) passes the client-supplied
name straight to get_content.  We model a path as its list of components; a
relative argument of join contributes its '/'-separated non-empty components,
and the operating system resolves ".." components when the path is used. -/

def pathComponents (s : List Char) : List (List Char) :=
  (splitOnChar '/' s).filter (fun c => !c.isEmpty)

/-- Components of the path built by Storage::get_repo_path for a given name:
root components, then "repo", then the components of name ++ ".md". -/
def get_repo_path_segs (root : List (List Char)) (name : String) :
    List (List Char) :=
  root ++ ["repo".toList] ++ pathComponents (name.toList ++ ".md".toList)

/-- Filesystem resolution of "." and ".." components, as the OS performs it
when the path is opened, read, written or deleted. -/
def resolveSegs (segs : List (List Char)) : List (List Char) :=
  segs.foldl
    (fun acc c =>
      if c = ['.'] then acc
      else if c = ['.', '.'] then acc.dropLast
      else acc ++ [c]) []

/-- The path lies inside the repo/ subtree of the given root. -/
def insideRepo (root : List (List Char)) (segs : List (List Char)) : Bool :=
  (root ++ ["repo".toList]).isPrefixOf (resolveSegs segs)

/-- An example storage root, ~/.config/pmx. -/
def exampleRoot : List (List Char) :=
  ["home".toList, "user".toList, ".config".toList, "pmx".toList]

/-! ## Repository listing: Storage::list_repos and recursive_list
(src/storage.rs, 151-167 and 243-266)

A directory entry is a file with its content or a directory with its entries
in the order the filesystem enumerates them; std::fs::read_dir gives no
ordering guarantee, so the model keeps whatever order the state holds.
recursive_list walks entries depth-first in that order and returns the file
paths (as component lists, relative to the repo root). -/

inductive Entry where
  | file : String → Entry
  | dir : List (String × Entry) → Entry

/-- recursive_list: depth-first file enumeration in directory-entry order. -/
def recEntries : List (String × Entry) → List (List String)
  | [] => []
  | (n, .file _) :: rest => [n] :: recEntries rest
  | (n, .dir es) :: rest => (recEntries es).map (fun p => n :: p) ++ recEntries rest

/-- Rust Path::extension() == "md", decided on the reversed file name: the
extension is the portion after the last '.', and a name whose only '.' is the
leading character has no extension. -/
def revExtIsMd : List Char → Bool
  | 'd' :: 'm' :: '.' :: rest => !rest.isEmpty
  | _ => false

def extIsMd (s : String) : Bool := revExtIsMd s.toList.reverse

/-- Components joined by '/', as Path::strip_prefix + to_string_lossy yields. -/
def joinSlash : List String → List Char
  | [] => []
  | [s] => s.toList
  | s :: rest => s.toList ++ '/' :: joinSlash rest

/-- Rust str::trim_end_matches(".md"): strips the suffix ".md" repeatedly,
acting on the reversed string. -/
def stripMdRev : List Char → List Char
  | 'd' :: 'm' :: '.' :: rest => stripMdRev rest
  | l => l

def trimEndMd (l : List Char) : List Char := (stripMdRev l.reverse).reverse

/-- Storage::list_repos: keep the files whose extension is md, join the
relative components with '/', strip trailing ".md" occurrences. -/
def list_repos (repo : List (String × Entry)) : List String :=
  ((recEntries repo).filter (fun p => extIsMd (p.getLastD ""))).map
    (fun p => String.mk (trimEndMd (joinSlash p)))

/-- Spec-side collection: the relative paths of exactly the .md files, in
depth-first directory order. -/
def mdNamePaths : List (String × Entry) → List (List String)
  | [] => []
  | (n, .file _) :: rest => (if extIsMd n then [[n]] else []) ++ mdNamePaths rest
  | (n, .dir es) :: rest => (mdNamePaths es).map (fun p => n :: p) ++ mdNamePaths rest

/-- Lexicographic comparison of char lists (scalar-value order), as the
claim's "ordered lexicographically by relative path" reads. -/
def lexLtChars : List Char → List Char → Bool
  | [], [] => false
  | [], _ :: _ => true
  | _ :: _, [] => false
  | a :: as, b :: bs =>
    if a.val < b.val then true else if b.val < a.val then false else lexLtChars as bs

def lexLe (a b : List Char) : Bool := !lexLtChars b a

def insertSorted (x : List Char) : List (List Char) → List (List Char)
  | [] => [x]
  | y :: ys => if lexLe x y then x :: y :: ys else y :: insertSorted x ys

def sortLex : List (List Char) → List (List Char)
  | [] => []
  | x :: xs => insertSorted x (sortLex xs)

/-- Stripping one single trailing ".md", as the claim words it. -/
def stripOnceMd (l : List Char) : List Char :=
  match l.reverse with
  | 'd' :: 'm' :: '.' :: rest => rest.reverse
  | _ => l

/-- The listing exactly as the claim words it: the .md files' relative paths
sorted lexicographically, each with the single trailing ".md" stripped. -/
def claimListSpec (repo : List (String × Entry)) : List String :=
  (sortLex (((recEntries repo).filter (fun p => extIsMd (p.getLastD ""))).map
    joinSlash)).map (fun l => String.mk (stripOnceMd l))

/-- A repository state: the filesystem yields "b.md" before "a.md.md". -/
def ex4 : List (String × Entry) := [("b.md", .file "x"), ("a.md.md", .file "y")]

end Pmx

namespace Pmx

/-! ## TemplateEngine: the placeholder grammar of the MCP server
(src/commands/mcp.rs, 31-73)

The regex <\x7b\x7b([A-Za-z_][A-Za-z0-9_]*)\x7d\x7d> is embedded as a direct
scanner: at a match position the identifier is the maximal run of identifier
characters after the opening delimiters (identifier characters and the closing
brace are disjoint, so the regex never backtracks), and scanning resumes after
the match, exactly like Regex::captures_iter / Regex::replace_all. -/

def isIdentStart (c : Char) : Bool :=
  ('A' ≤ c && c ≤ 'Z') || ('a' ≤ c && c ≤ 'z') || c = '_'

def isIdentCont (c : Char) : Bool :=
  isIdentStart c || ('0' ≤ c && c ≤ '9')

def validIdent (id : List Char) : Bool :=
  match id with
  | [] => false
  | c :: rest => isIdentStart c && rest.all isIdentCont

/-- The placeholder text for an identifier. -/
def placeholderPat (id : List Char) : List Char :=
  '<' :: '{' :: '{' :: (id ++ ['}', '}', '>'])

/-- Try to match a placeholder at the head of the list, returning the
identifier and the remainder after the match. -/
def matchPlaceholderAt (l : List Char) : Option (List Char × List Char) :=
  match l with
  | c1 :: c2 :: c3 :: rest =>
    if c1 = '<' ∧ c2 = '{' ∧ c3 = '{' then
      let id := rest.takeWhile isIdentCont
      if validIdent id then
        match rest.dropWhile isIdentCont with
        | a1 :: a2 :: a3 :: rest2 =>
          if a1 = '}' ∧ a2 = '}' ∧ a3 = '>' then some (id, rest2) else none
        | _ => none
      else none
    else none
  | _ => none

/-- All matched identifiers in scan order (with duplicates), fuelled so that
every definition stays structurally recursive and executable; the wrapper
below supplies fuel equal to the input length, which the length lemma shows
is always enough. -/
def extractIdsF : Nat → List Char → List (List Char)
  | 0, _ => []
  | _ + 1, [] => []
  | fuel + 1, c :: rest =>
    match matchPlaceholderAt (c :: rest) with
    | some (id, r) => id :: extractIdsF fuel r
    | none => extractIdsF fuel rest

def extractIds (l : List Char) : List (List Char) := extractIdsF l.length l

/-- The HashSet-based dedup loop: keep an identifier only when not seen. -/
def dedupAux (seen : List (List Char)) : List (List Char) → List (List Char)
  | [] => []
  | x :: xs => if x ∈ seen then dedupAux seen xs else x :: dedupAux (x :: seen) xs

/-- First occurrence of each element, in discovery order (the claim's
formulation of the dedup). -/
def firstOccurrences (l : List (List Char)) : List (List Char) :=
  l.foldl (fun acc x => if x ∈ acc then acc else acc ++ [x]) []

structure PromptArgument where
  name : String
  description : Option String
  required : Option Bool
deriving DecidableEq

/-- extract_arguments_from_content: scan, dedup keeping first occurrences,
wrap each identifier as a required prompt argument. -/
def extract_arguments_from_content (content : String) : List PromptArgument :=
  (dedupAux [] (extractIds content.toList)).map
    (fun id => ⟨String.mk id, some ("Value for " ++ String.mk id), some true⟩)

def extractedNames (content : String) : List String :=
  (extract_arguments_from_content content).map (fun a => a.name)

/-! ## Substitution: substitute_arguments (src/commands/mcp.rs, 57-73) -/

/-- A JSON binding value as the substitution distinguishes them: a string
(used verbatim) or any other value carried as its canonical textual rendering
(serde_json Value::to_string), which the code post-processes with
trim_matches of the double quote. -/
inductive JValue where
  | str : String → JValue
  | other : String → JValue
deriving DecidableEq

/-- Rust str::trim_matches of the double-quote character. -/
def trimQuotes (l : List Char) : List Char :=
  ((l.dropWhile (fun c => c = '"')).reverse.dropWhile (fun c => c = '"')).reverse

/-- Lookup in the bindings object (serde_json Map keyed by String). -/
def lookupArg (args : List (String × JValue)) (k : String) : Option JValue :=
  (args.find? (fun p => decide (p.1 = k))).map (fun p => p.2)

/-- Replacement text for one matched identifier: a bound string verbatim, any
other bound value as its rendering with surrounding quotes stripped, and the
original placeholder when unbound. -/
def replacementFor (args : List (String × JValue)) (id : List Char) : List Char :=
  match lookupArg args (String.mk id) with
  | some (.str s) => s.toList
  | some (.other t) => trimQuotes t.toList
  | none => placeholderPat id

/-- Regex::replace_all as a single left-to-right pass: replacement text is
emitted and never rescanned. -/
def substAuxF (args : List (String × JValue)) : Nat → List Char → List Char
  | 0, l => l
  | _ + 1, [] => []
  | fuel + 1, c :: rest =>
    match matchPlaceholderAt (c :: rest) with
    | some (id, r) => replacementFor args id ++ substAuxF args fuel r
    | none => c :: substAuxF args fuel rest

def substChars (args : List (String × JValue)) (l : List Char) : List Char :=
  substAuxF args l.length l

/-- substitute_arguments: absent bindings return the content untouched. -/
def substitute_arguments (content : String) (args : Option (List (String × JValue))) :
    String :=
  match args with
  | none => content
  | some a => String.mk (substChars a content.toList)

/-! ## Enablement policy and the MCP server handlers
(src/storage.rs, 24-43 and src/commands/mcp.rs, 20-28, 89-153) -/

/-- The untagged tri-state disable option of the config. -/
inductive DisableOption where
  | bool : Bool → DisableOption
  | list : List String → DisableOption
deriving DecidableEq

def is_prompt_enabled (dp : DisableOption) (prompt_name : String) : Bool :=
  match dp with
  | .bool true => false
  | .bool false => true
  | .list disabled_list => !decide (prompt_name ∈ disabled_list)

/-- A protocol error: the rmcp ErrorData code plus its message. -/
structure McpError where
  code : Int
  message : List Char
deriving DecidableEq

def invalidParams (msg : List Char) : McpError := ⟨-32602, msg⟩

/-- The error returned when the enablement policy hides the prompt. -/
def disabledError : McpError := invalidParams "Prompt is disabled".toList

/-- The error returned when the repository read fails, wrapping its message. -/
def notFoundError (e : List Char) : McpError :=
  invalidParams ("Prompt not found: ".toList ++ e)

/-- Storage::get_repo_path error text for an absent profile. -/
def profileNotFoundMsg (name : String) : List Char :=
  "Profile not found: ".toList ++ name.toList

/-- get_prompt: reject a hidden name before consulting the repository;
otherwise read and substitute.  The repository is a content lookup by name;
a none result is the absent-profile failure of get_content. -/
def get_prompt (dp : DisableOption) (fs : String → Option String) (name : String)
    (args : Option (List (String × JValue))) : Except McpError String :=
  if !is_prompt_enabled dp name then .error disabledError
  else
    match fs name with
    | none => .error (notFoundError (profileNotFoundMsg name))
    | some content => .ok (substitute_arguments content args)

structure Prompt where
  name : String
  description : Option String
  arguments : Option (List PromptArgument)
deriving DecidableEq

/-- The loop body of list_prompts for one enabled profile: read the content;
on success extract the arguments (none when the list is empty), on failure
attach no argument spec. -/
def promptFor (fs : String → Option String) (p : String) : Prompt :=
  { name := p
    description := some ("System prompt: " ++ p)
    arguments :=
      match fs p with
      | some content =>
        let extracted := extract_arguments_from_content content
        if extracted.isEmpty then none else some extracted
      | none => none }

/-- list_prompts: keep the enabled profiles, in order, each with its
best-effort argument spec. -/
def list_prompts (dp : DisableOption) (profiles : List String)
    (fs : String → Option String) : List Prompt :=
  (profiles.filter (fun p => is_prompt_enabled dp p)).map (promptFor fs)

end Pmx

namespace Pmx

/-! ## Profile store and the CLI create flow
(src/storage.rs, 175-213 and src/commands/profile.rs, 58-121)

The repo/ subtree is abstracted as a finite map from profile name to document
content; for validated names the name-to-path mapping is injective, so the map
view is faithful.  fs::write (create_profile) inserts or overwrites; the
AlreadyExists check lives in the CLI create wrapper, which runs it before
anything else. -/

def profile_exists (st : List (String × String)) (name : String) : Bool :=
  st.any (fun p => decide (p.1 = name))

/-- Storage::create_profile: plain fs::write at the resolved path — it
overwrites whatever is there (the caller checks existence first). -/
def create_profile (st : List (String × String)) (name content : String) :
    List (String × String) :=
  (name, content) :: st

/-- Storage::get_profile_content (read via the resolved path). -/
def get_profile_content (st : List (String × String)) (name : String) :
    Option String :=
  (st.find? (fun p => decide (p.1 = name))).map (fun p => p.2)

inductive CreateOutcome where
  | errAlreadyExists
  | errInvalidName
  | cancelled
  | created
deriving DecidableEq

/-- The initial template written to the editor's temp file. -/
def templateChars (name : String) : List Char :=
  ("# " ++ name ++ "\n\n<!-- Add your profile content here -->").toList ++ ['\n']

/-- One line is ignorable: blank, a heading, or an HTML comment opener. -/
def ignorableLine (line : List Char) : Bool :=
  let t := rustTrim line
  t.isEmpty || t.headD ' ' = '#' || "<!--".toList.isPrefixOf t

/-- The is_empty test of commands/profile.rs create: trimmed content empty,
equal to the bare header, equal to the trimmed template, or all lines
ignorable. -/
def is_effectively_empty (name content : String) : Bool :=
  (rustTrim content.toList).isEmpty ||
  rustTrim content.toList = ("# " ++ name).toList ||
  rustTrim content.toList
    = rustTrim (("# " ++ name ++ "\n\n<!-- Add your profile content here -->").toList) ||
  (rustLines (rustTrim content.toList)).all ignorableLine

/-- Effectively-empty exactly as the claim words it: empty after trimming,
equal to the initial template, or all lines blank / heading / comment. -/
def claimEffectivelyEmpty (name content : String) : Bool :=
  (rustTrim content.toList).isEmpty ||
  rustTrim content.toList = rustTrim (templateChars name) ||
  (rustLines (rustTrim content.toList)).all ignorableLine

/-- The CLI create flow with the editor result supplied as an argument:
existence check first, then name validation, then the effectively-empty
cancellation, then the write. -/
def cli_create (st : List (String × String)) (name editorContent : String) :
    List (String × String) × CreateOutcome :=
  if profile_exists st name then (st, .errAlreadyExists)
  else if !validate_profile_name name then (st, .errInvalidName)
  else if is_effectively_empty name editorContent then (st, .cancelled)
  else (create_profile st name editorContent, .created)

/-! ## Config decoding (src/storage.rs, 11-69)

The TOML surface syntax is parsed by the external toml crate; its output is
modelled as a value tree, and the serde derive semantics of Config (required
agents group, defaulted mcp group, defaulted untagged tri-state fields) are
embedded directly.  Config::load turns a missing file and a failed parse into
errors. -/

inductive TomlValue where
  | bool : Bool → TomlValue
  | int : Int → TomlValue
  | str : String → TomlValue
  | arr : List TomlValue → TomlValue
  | table : List (String × TomlValue) → TomlValue

structure Agents where
  disable_claude : Bool
  disable_codex : Bool
deriving DecidableEq

structure McpConfig where
  disable_prompts : DisableOption
  disable_tools : DisableOption
deriving DecidableEq

/-- Default::default for McpConfig: both fields DisableOption::Bool(false). -/
def defaultMcp : McpConfig := ⟨.bool false, .bool false⟩

structure Config where
  agents : Agents
  mcp : McpConfig
deriving DecidableEq

def lookupToml (kvs : List (String × TomlValue)) (k : String) : Option TomlValue :=
  (kvs.find? (fun p => decide (p.1 = k))).map (fun p => p.2)

def asBool : TomlValue → Option Bool
  | .bool b => some b
  | _ => none

def asStrings : List TomlValue → Option (List String)
  | [] => some []
  | .str s :: rest => (asStrings rest).map (fun l => s :: l)
  | _ => none

/-- serde untagged DisableOption: first a bool, else a list of strings. -/
def decodeDisable : TomlValue → Except String DisableOption
  | .bool b => .ok (.bool b)
  | .arr l =>
    match asStrings l with
    | some names => .ok (.list names)
    | none => .error "data did not match any variant of untagged enum DisableOption"
  | _ => .error "data did not match any variant of untagged enum DisableOption"

/-- Agents has no serde defaults: both fields are required bools. -/
def decodeAgents : TomlValue → Except String Agents
  | .table kvs =>
    match (lookupToml kvs "disable_claude").bind asBool,
        (lookupToml kvs "disable_codex").bind asBool with
    | some c, some x => .ok ⟨c, x⟩
    | _, _ => .error "invalid agents table"
  | _ => .error "agents must be a table"

/-- McpConfig: each tri-state field defaults to Bool(false) when absent. -/
def decodeMcp : TomlValue → Except String McpConfig
  | .table kvs =>
    match (match lookupToml kvs "disable_prompts" with
           | none => Except.ok (DisableOption.bool false)
           | some v => decodeDisable v),
        (match lookupToml kvs "disable_tools" with
         | none => Except.ok (DisableOption.bool false)
         | some v => decodeDisable v) with
    | .ok p, .ok t => .ok ⟨p, t⟩
    | .error e, _ => .error e
    | _, .error e => .error e
  | _ => .error "mcp must be a table"

/-- Config: agents is required; the whole mcp group defaults when absent. -/
def decodeConfig : TomlValue → Except String Config
  | .table kvs =>
    (match lookupToml kvs "agents" with
     | none => .error "missing field agents"
     | some av =>
       match decodeAgents av with
       | .error e => .error e
       | .ok ag =>
         match lookupToml kvs "mcp" with
         | none => .ok ⟨ag, defaultMcp⟩
         | some mv =>
           match decodeMcp mv with
           | .error e => .error e
           | .ok m => .ok ⟨ag, m⟩)
  | _ => .error "config must be a table"

/-- Config::load over the state of config.toml: absent file, present but
syntactically malformed (the toml crate's parse failed), or parsed. -/
def configLoad (file : Option (Except String TomlValue)) : Except String Config :=
  match file with
  | none => .error "Config file does not exist"
  | some (.error e) => .error ("Failed to parse config file: " ++ e)
  | some (.ok t) =>
    match decodeConfig t with
    | .error e => .error ("Failed to parse config file: " ++ e)
    | .ok c => .ok c

/-- A well-formed agents table. -/
def exAgents : TomlValue :=
  .table [("disable_claude", .bool false), ("disable_codex", .bool false)]

end Pmx

namespace Pmx

/-! ## Helper lemmas -/

/-- A chain of rejecting if-branches equals the conjunction of the negated
conditions. -/
theorem boolRejectChain (b1 b2 b3 b4 b5 : Bool) :
    (if b1 then false else if b2 then false else if b3 then false
      else if b4 then false else if b5 then false else true)
    = (!b1 && !b2 && !b3 && !b4 && !b5) := by
  cases b1 <;> cases b2 <;> cases b3 <;> cases b4 <;> cases b5 <;> rfl

theorem recEntries_ex4 : recEntries ex4 = [["b.md"], ["a.md.md"]] := by
  simp [recEntries, ex4]

theorem getLastD_cons_ne (n : String) (p : List String) (hp : p ≠ []) :
    (n :: p).getLastD "" = p.getLastD "" := by
  cases p
  · exact absurd rfl hp
  · rfl

theorem recEntries_mem_ne_nil : ∀ es, ∀ p ∈ recEntries es, p ≠ [] := by
  intro es
  induction es using recEntries.induct with
  | case1 => intro p hp; simp [recEntries] at hp
  | case2 n content rest ih =>
      intro p hp
      simp only [recEntries, List.mem_cons] at hp
      rcases hp with rfl | hp
      · simp
      · exact ih p hp
  | case3 n es rest ih1 ih2 =>
      intro p hp
      simp only [recEntries, List.mem_append, List.mem_map] at hp
      rcases hp with ⟨q, hq, rfl⟩ | hp
      · simp
      · exact ih2 p hp

/-- Filtering the walk down to .md files gives exactly the spec-side
collection, in the same order. -/
theorem filter_recEntries (es : List (String × Entry)) :
    (recEntries es).filter (fun p => extIsMd (p.getLastD "")) = mdNamePaths es := by
  induction es using recEntries.induct with
  | case1 => simp [recEntries, mdNamePaths]
  | case2 n content rest ih =>
      simp only [recEntries, mdNamePaths, List.filter_cons]
      rw [ih]
      have hn : (([n] : List String).getLastD "") = n := rfl
      rw [hn]
      split <;> simp_all
  | case3 n es rest ih1 ih2 =>
      simp only [recEntries, mdNamePaths, List.filter_append]
      rw [List.filter_map, ih2]
      congr 1
      have hcong : ∀ p ∈ recEntries es,
          ((fun p => extIsMd (p.getLastD "")) ∘ (fun p => n :: p)) p
            = (fun p => extIsMd (p.getLastD "")) p := by
        intro p hp
        simp only [Function.comp_apply]
        rw [getLastD_cons_ne n p (recEntries_mem_ne_nil es p hp)]
      rw [List.filter_congr hcong, ih1]

/-! ## Placeholder matching lemmas -/

theorem matchPlaceholderAt_sound {l id r : List Char}
    (h : matchPlaceholderAt l = some (id, r)) :
    l = placeholderPat id ++ r ∧ validIdent id = true := by
  match l with
  | [] => simp [matchPlaceholderAt] at h
  | [c1] => simp [matchPlaceholderAt] at h
  | [c1, c2] => simp [matchPlaceholderAt] at h
  | c1 :: c2 :: c3 :: rest =>
    unfold matchPlaceholderAt at h
    by_cases h1 : c1 = '<' ∧ c2 = '{' ∧ c3 = '{'
    case neg => simp [h1] at h
    obtain ⟨rfl, rfl, rfl⟩ := h1
    simp only [if_pos, and_self, if_true] at h
    by_cases h2 : validIdent (rest.takeWhile isIdentCont)
    case neg => simp [h2] at h
    rw [if_pos h2] at h
    match hd : rest.dropWhile isIdentCont with
    | [] => rw [hd] at h; simp at h
    | [a1] => rw [hd] at h; simp at h
    | [a1, a2] => rw [hd] at h; simp at h
    | a1 :: a2 :: a3 :: rest2 =>
      rw [hd] at h
      by_cases h3 : a1 = '}' ∧ a2 = '}' ∧ a3 = '>'
      case neg => simp [h3] at h
      obtain ⟨rfl, rfl, rfl⟩ := h3
      simp only [and_self, if_true, Option.some_inj, Prod.mk.injEq] at h
      obtain ⟨rfl, rfl⟩ := h
      refine ⟨?_, h2⟩
      have hsplit : rest.takeWhile isIdentCont ++ rest.dropWhile isIdentCont = rest :=
        List.takeWhile_append_dropWhile isIdentCont rest
      rw [hd] at hsplit
      conv_lhs => rw [← hsplit]
      simp [placeholderPat]

theorem takeWhile_all_append {p : Char → Bool} {l : List Char} (h : l.all p = true)
    {x : Char} (hx : p x = false) (xs : List Char) :
    (l ++ x :: xs).takeWhile p = l ∧ (l ++ x :: xs).dropWhile p = x :: xs := by
  induction l with
  | nil => simp [List.takeWhile, List.dropWhile, hx]
  | cons c l' ih =>
    simp only [List.all_cons, Bool.and_eq_true] at h
    have := ih h.2
    simp [List.takeWhile, List.dropWhile, h.1, this.1, this.2]

theorem validIdent_all_cont {id : List Char} (h : validIdent id = true) :
    id.all isIdentCont = true := by
  match id with
  | [] => simp [validIdent] at h
  | c :: rest =>
    simp only [validIdent, Bool.and_eq_true] at h
    simp [List.all_cons, h.2, isIdentCont, h.1]

theorem matchPlaceholderAt_pat (id rest : List Char) (hv : validIdent id = true) :
    matchPlaceholderAt (placeholderPat id ++ rest) = some (id, rest) := by
  have hall := validIdent_all_cont hv
  have hx : isIdentCont '}' = false := by decide
  have h1 : placeholderPat id ++ rest
      = '<' :: '{' :: '{' :: (id ++ '}' :: '}' :: '>' :: rest) := by
    simp [placeholderPat]
  obtain ⟨htw, hdw⟩ := takeWhile_all_append hall hx ('}' :: '>' :: rest)
  rw [h1]
  simp [matchPlaceholderAt, htw, hdw, hv]

theorem matchPlaceholderAt_length {l id r : List Char}
    (h : matchPlaceholderAt l = some (id, r)) : r.length < l.length := by
  have := (matchPlaceholderAt_sound h).1
  subst this
  simp [placeholderPat]
  omega

/-! ## Extraction lemmas -/

theorem extractIdsF_sound :
    ∀ fuel (l : List Char), ∀ id ∈ extractIdsF fuel l,
      validIdent id = true ∧ ∃ s t, l = s ++ placeholderPat id ++ t := by
  intro fuel
  induction fuel with
  | zero => intro l id hid; simp [extractIdsF] at hid
  | succ f ih =>
    intro l id hid
    match l with
    | [] => simp [extractIdsF] at hid
    | c :: rest =>
      unfold extractIdsF at hid
      cases hm : matchPlaceholderAt (c :: rest) with
      | none =>
        rw [hm] at hid
        obtain ⟨hv, s, t, heq⟩ := ih rest id hid
        exact ⟨hv, c :: s, t, by rw [heq]; rfl⟩
      | some pr =>
        obtain ⟨id0, r⟩ := pr
        rw [hm] at hid
        simp only [List.mem_cons] at hid
        obtain ⟨hpat, hv0⟩ := matchPlaceholderAt_sound hm
        rcases hid with rfl | hid
        · exact ⟨hv0, [], r, by simpa using hpat⟩
        · obtain ⟨hv, s, t, heq⟩ := ih r id hid
          exact ⟨hv, placeholderPat id0 ++ s, t, by rw [hpat, heq]; simp⟩

theorem extractIdsF_complete :
    ∀ fuel (l : List Char), l.length ≤ fuel →
      ∀ s t id, validIdent id = true → l = s ++ placeholderPat id ++ t →
      id ∈ extractIdsF fuel l := by
  intro fuel
  induction fuel with
  | zero =>
    intro l hlen s t id hv heq
    have : l = [] := List.eq_nil_of_length_eq_zero (Nat.le_zero.mp hlen)
    subst this
    exfalso
    have := congrArg List.length heq
    simp [placeholderPat] at this
    omega
  | succ f ih =>
    intro l hlen s t id hv heq
    match l with
    | [] =>
      exfalso
      have := congrArg List.length heq
      simp [placeholderPat] at this
      omega
    | c :: rest =>
      have hrest : rest.length ≤ f := by
        simpa using Nat.lt_succ_iff.mp (by simpa using Nat.lt_of_lt_of_le (by simp) hlen)
      unfold extractIdsF
      cases hm : matchPlaceholderAt (c :: rest) with
      | none =>
        cases s with
        | nil =>
          exfalso
          simp only [List.nil_append] at heq
          rw [heq, matchPlaceholderAt_pat id t hv] at hm
          exact Option.noConfusion hm
        | cons c' s' =>
          simp only [List.cons_append, List.cons.injEq] at heq
          exact ih rest hrest s' t id hv heq.2
      | some pr =>
        obtain ⟨id0, r⟩ := pr
        obtain ⟨hpat, hv0⟩ := matchPlaceholderAt_sound hm
        have hrlen : r.length ≤ f := by
          have := matchPlaceholderAt_length hm
          omega
        show id ∈ id0 :: extractIdsF f r
        cases s with
        | nil =>
          simp only [List.nil_append] at heq
          have hdet : matchPlaceholderAt (c :: rest) = some (id, t) := by
            rw [heq]; exact matchPlaceholderAt_pat id t hv
          rw [hm] at hdet
          simp only [Option.some_inj, Prod.mk.injEq] at hdet
          simp [hdet.1]
        | cons c' s' =>
          have hkey : (c' :: s') ++ (placeholderPat id ++ t) = placeholderPat id0 ++ r := by
            rw [← List.append_assoc, ← heq, hpat]
          rcases List.append_eq_append_iff.mp hkey with ⟨a', ha1, ha2⟩ | ⟨c'', hc1, hc2⟩
          · cases a' with
            | nil =>
              apply List.mem_cons_of_mem
              simp only [List.nil_append] at ha2
              exact ih r hrlen [] t id hv (by simpa using ha2.symm)
            | cons a1 a'' =>
              exfalso
              have ha1lt : a1 = '<' := by
                have : placeholderPat id ++ t = a1 :: (a'' ++ r) := by simpa using ha2
                simp only [placeholderPat, List.cons_append, List.cons.injEq] at this
                exact this.1.symm
              have htail : '{' :: '{' :: (id0 ++ ['}', '}', '>']) = s' ++ a1 :: a'' := by
                have : placeholderPat id0 = c' :: (s' ++ a1 :: a'') := by simpa using ha1
                simp only [placeholderPat, List.cons.injEq] at this
                exact this.2
              have hmem : a1 ∈ '{' :: '{' :: (id0 ++ ['}', '}', '>']) := by
                rw [htail]
                simp
              rw [ha1lt] at hmem
              simp only [List.mem_cons, List.mem_append] at hmem
              rcases hmem with h | h | h | h
              · exact absurd h (by decide)
              · exact absurd h (by decide)
              · have := List.all_eq_true.mp (validIdent_all_cont hv0) '<' h
                exact absurd this (by decide)
              · simp at h
          · apply List.mem_cons_of_mem
            exact ih r hrlen c'' t id hv (by rw [hc2, List.append_assoc])

theorem extractIds_sound (l : List Char) :
    ∀ id ∈ extractIds l, validIdent id = true ∧ ∃ s t, l = s ++ placeholderPat id ++ t :=
  extractIdsF_sound l.length l

theorem extractIds_complete (l : List Char) (s t id : List Char)
    (hv : validIdent id = true) (heq : l = s ++ placeholderPat id ++ t) :
    id ∈ extractIds l :=
  extractIdsF_complete l.length l (Nat.le_refl _) s t id hv heq

/-! ## Dedup lemmas -/

theorem mem_dedupAux :
    ∀ (l : List (List Char)) (seen : List (List Char)) (x : List Char),
      x ∈ dedupAux seen l → x ∈ l ∧ x ∉ seen := by
  intro l
  induction l with
  | nil => intro seen x hx; simp [dedupAux] at hx
  | cons y ys ih =>
    intro seen x hx
    unfold dedupAux at hx
    by_cases hc : y ∈ seen
    · rw [if_pos hc] at hx
      obtain ⟨h1, h2⟩ := ih seen x hx
      exact ⟨List.mem_cons_of_mem _ h1, h2⟩
    · rw [if_neg hc] at hx
      rcases List.mem_cons.mp hx with rfl | hx'
      · exact ⟨List.mem_cons_self _ _, hc⟩
      · obtain ⟨h1, h2⟩ := ih (y :: seen) x hx'
        exact ⟨List.mem_cons_of_mem _ h1, fun hs => h2 (List.mem_cons_of_mem _ hs)⟩

theorem mem_dedupAux_of_mem :
    ∀ (l : List (List Char)) (seen : List (List Char)) (x : List Char),
      x ∈ l → x ∉ seen → x ∈ dedupAux seen l := by
  intro l
  induction l with
  | nil => intro seen x hx; simp at hx
  | cons y ys ih =>
    intro seen x hx hns
    unfold dedupAux
    rcases List.mem_cons.mp hx with rfl | hx'
    · rw [if_neg hns]
      exact List.mem_cons_self _ _
    · by_cases hc : y ∈ seen
      · rw [if_pos hc]
        exact ih seen x hx' hns
      · rw [if_neg hc]
        by_cases hxy : x = y
        · subst hxy; exact List.mem_cons_self _ _
        · refine List.mem_cons_of_mem _ (ih (y :: seen) x hx' ?_)
          intro hmem
          rcases List.mem_cons.mp hmem with h | h
          · exact hxy h
          · exact hns h

theorem dedupAux_nodup :
    ∀ (l : List (List Char)) (seen : List (List Char)), (dedupAux seen l).Nodup := by
  intro l
  induction l with
  | nil => intro seen; simp [dedupAux]
  | cons y ys ih =>
    intro seen
    unfold dedupAux
    by_cases hc : y ∈ seen
    · rw [if_pos hc]; exact ih seen
    · rw [if_neg hc]
      refine List.nodup_cons.mpr ⟨?_, ih (y :: seen)⟩
      intro hmem
      exact (mem_dedupAux ys (y :: seen) y hmem).2 (List.mem_cons_self _ _)

theorem dedupAux_eq_foldl :
    ∀ (l : List (List Char)) (seen acc : List (List Char)),
      (∀ x, x ∈ seen ↔ x ∈ acc) →
      acc ++ dedupAux seen l
        = l.foldl (fun acc x => if x ∈ acc then acc else acc ++ [x]) acc := by
  intro l
  induction l with
  | nil => intro seen acc h; simp [dedupAux]
  | cons y ys ih =>
    intro seen acc h
    unfold dedupAux
    simp only [List.foldl_cons]
    by_cases hc : y ∈ seen
    · rw [if_pos hc, if_pos ((h y).mp hc)]
      exact ih seen acc h
    · rw [if_neg hc, if_neg (fun hy => hc ((h y).mpr hy))]
      have := ih (y :: seen) (acc ++ [y]) (by
        intro x
        constructor
        · intro hx
          rcases List.mem_cons.mp hx with rfl | hx
          · exact List.mem_append.mpr (Or.inr (List.mem_singleton.mpr rfl))
          · exact List.mem_append.mpr (Or.inl ((h x).mp hx))
        · intro hx
          rcases List.mem_append.mp hx with hx | hx
          · exact List.mem_cons_of_mem _ ((h x).mpr hx)
          · have := List.mem_singleton.mp hx
            subst this
            exact List.mem_cons_self _ _)
      rw [← this]
      simp

theorem dedupAux_eq_firstOccurrences (l : List (List Char)) :
    dedupAux [] l = firstOccurrences l := by
  have := dedupAux_eq_foldl l [] [] (by simp)
  simpa [firstOccurrences] using this

theorem mem_extractedNames {l id : List Char} (hid : id ∈ dedupAux [] (extractIds l)) :
    String.mk id ∈ extractedNames (String.mk l) := by
  unfold extractedNames extract_arguments_from_content
  simp only [List.map_map, List.mem_map]
  exact ⟨id, by simpa using hid, rfl⟩

end Pmx

namespace Pmx

/-! ## Substitution lemmas -/

theorem substAuxF_cons_match {args : List (String × JValue)} {fuel : Nat}
    {c : Char} {rest id r : List Char} (hm : matchPlaceholderAt (c :: rest) = some (id, r)) :
    substAuxF args (fuel + 1) (c :: rest)
      = replacementFor args id ++ substAuxF args fuel r := by
  simp only [substAuxF, hm]

theorem substAuxF_cons_none {args : List (String × JValue)} {fuel : Nat}
    {c : Char} {rest : List Char} (hm : matchPlaceholderAt (c :: rest) = none) :
    substAuxF args (fuel + 1) (c :: rest) = c :: substAuxF args fuel rest := by
  simp only [substAuxF, hm]

theorem substAuxF_fuel_irrel (args : List (String × JValue)) :
    ∀ f1 f2 (l : List Char), l.length ≤ f1 → l.length ≤ f2 →
      substAuxF args f1 l = substAuxF args f2 l := by
  intro f1
  induction f1 with
  | zero =>
    intro f2 l h1 h2
    have : l = [] := List.eq_nil_of_length_eq_zero (Nat.le_zero.mp h1)
    subst this
    cases f2 <;> rfl
  | succ g ih =>
    intro f2 l h1 h2
    match l with
    | [] => cases f2 <;> rfl
    | c :: rest =>
      match f2 with
      | 0 => simp at h2
      | k + 1 =>
        cases hm : matchPlaceholderAt (c :: rest) with
        | some pr =>
          obtain ⟨id, r⟩ := pr
          rw [substAuxF_cons_match hm, substAuxF_cons_match hm]
          have hr := matchPlaceholderAt_length hm
          simp only [List.length_cons] at h1 h2 hr
          rw [ih k r (by omega) (by omega)]
        | none =>
          rw [substAuxF_cons_none hm, substAuxF_cons_none hm]
          simp only [List.length_cons] at h1 h2
          rw [ih k rest (by omega) (by omega)]

theorem substAuxF_nil_args :
    ∀ fuel (l : List Char), substAuxF [] fuel l = l := by
  intro fuel
  induction fuel with
  | zero => intro l; rfl
  | succ g ih =>
    intro l
    match l with
    | [] => rfl
    | c :: rest =>
      cases hm : matchPlaceholderAt (c :: rest) with
      | some pr =>
        obtain ⟨id, r⟩ := pr
        rw [substAuxF_cons_match hm]
        have hrepl : replacementFor [] id = placeholderPat id := rfl
        rw [hrepl, ih r]
        exact ((matchPlaceholderAt_sound hm).1).symm
      | none =>
        rw [substAuxF_cons_none hm, ih rest]

theorem substChars_step (args : List (String × JValue)) (id rest : List Char)
    (hv : validIdent id = true) :
    substChars args (placeholderPat id ++ rest)
      = replacementFor args id ++ substChars args rest := by
  have hm := matchPlaceholderAt_pat id rest hv
  have hsh : placeholderPat id ++ rest
      = '<' :: (('{' :: '{' :: (id ++ ['}', '}', '>'])) ++ rest) := by
    simp [placeholderPat]
  unfold substChars
  rw [hsh] at hm ⊢
  rw [show ('<' :: (('{' :: '{' :: (id ++ ['}', '}', '>'])) ++ rest)).length
      = (('{' :: '{' :: (id ++ ['}', '}', '>'])) ++ rest).length + 1 from rfl]
  rw [substAuxF_cons_match hm]
  congr 1
  apply substAuxF_fuel_irrel
  · simp
    omega
  · exact Nat.le_refl _

theorem substitute_arguments_none (content : String) :
    substitute_arguments content none = content := rfl

theorem substitute_arguments_empty (content : String) :
    substitute_arguments content (some []) = content := by
  show String.mk (substAuxF [] content.toList.length content.toList) = content
  rw [substAuxF_nil_args]
  cases content
  rfl

/-! ## MCP error distinctness -/

theorem disabledError_ne_notFoundError (e : List Char) :
    disabledError ≠ notFoundError e := by
  intro h
  simp only [disabledError, notFoundError, invalidParams, McpError.mk.injEq, true_and] at h
  have h7 := congrArg (fun l => l[7]?) h
  have hL : ("Prompt is disabled".toList)[7]? = some 'i' := by decide
  have hR : (("Prompt not found: ".toList ++ e))[7]? = some 'n' := by
    rw [List.getElem?_append]
    rw [if_pos (by decide)]
    decide
  simp only [hL, hR] at h7
  exact absurd h7 (by decide)

theorem mem_extract_required (content : String) :
    ∀ arg ∈ extract_arguments_from_content content,
      arg.required = some true ∧ arg.description = some ("Value for " ++ arg.name) := by
  intro arg harg
  unfold extract_arguments_from_content at harg
  obtain ⟨id, _, rfl⟩ := List.mem_map.mp harg
  exact ⟨rfl, rfl⟩

/-! ## CLI create lemmas -/

theorem rustTrim_append_newline (l : List Char) : rustTrim (l ++ ['\n']) = rustTrim l := by
  unfold rustTrim
  rw [List.dropWhile_append]
  by_cases h : (l.dropWhile rustIsWhitespace).isEmpty
  · rw [if_pos h]
    rw [List.isEmpty_iff.mp h]
    rfl
  · rw [if_neg h]
    rw [List.reverse_append]
    have : (['\n'] : List Char).reverse = ['\n'] := rfl
    rw [this]
    have hws : rustIsWhitespace '\n' = true := by decide
    simp [List.dropWhile, hws]

theorem claimEmpty_implies_empty (name content : String)
    (h : claimEffectivelyEmpty name content = true) :
    is_effectively_empty name content = true := by
  unfold claimEffectivelyEmpty at h
  unfold is_effectively_empty
  have htpl : rustTrim (templateChars name)
      = rustTrim (("# " ++ name ++ "\n\n<!-- Add your profile content here -->").toList) := by
    unfold templateChars
    exact rustTrim_append_newline _
  rw [htpl] at h
  rcases Bool.or_eq_true _ _ |>.mp h with h | h
  · rcases Bool.or_eq_true _ _ |>.mp h with h | h
    · rw [h]
      rfl
    · rw [h]
      simp
  · rw [h]
    simp

end Pmx

/-! ## Claim theorems -/

/-- C1: the path acted on is not confined to the repo/ subtree: for the
client-suppliable name "../escape" (which the protocol get operation passes to
the repository unvalidated), the path built by get_repo_path resolves to
<root>/escape.md, outside <root>/repo. -/
theorem Pmx.c1_traversal_escapes_repo :
    Pmx.resolveSegs (Pmx.get_repo_path_segs Pmx.exampleRoot "../escape")
      = Pmx.exampleRoot ++ ["escape.md".toList] ∧
    Pmx.insideRepo Pmx.exampleRoot
      (Pmx.get_repo_path_segs Pmx.exampleRoot "../escape") = false := by
  constructor <;> decide

/-- C2: the claim's rule set is not what the code implements: the
single-component name "." is accepted by the code though the claim's component
rule rejects it, and a 128-code-point name of two-byte characters is rejected
by the code (256 UTF-8 bytes) though it satisfies every claimed rule. -/
theorem Pmx.c2_validate_claim_counterexample :
    Pmx.validate_profile_name "." = true ∧ Pmx.validNameClaim "." = false ∧
    Pmx.validate_profile_name Pmx.eAcute128 = false ∧
    Pmx.validNameClaim Pmx.eAcute128 = true := by
  refine ⟨by decide, by decide, ?_, ?_⟩ <;> decide

/-- C2 (amended): validate accepts a name iff it is non-empty, at most 255
UTF-8 bytes long, contains no ".." and no backslash, has no empty or "." or
".." component when (and only when) it contains a '/', and contains none of
the reserved characters and no control character. -/
theorem Pmx.c2_validate_iff_rules (name : String) :
    Pmx.validate_profile_name name = Pmx.validNameAmended name := by
  unfold Pmx.validate_profile_name Pmx.validNameAmended
  rw [Pmx.boolRejectChain]
  have h : decide (Pmx.utf8Len name.toList ≤ 255)
      = !decide (255 < Pmx.utf8Len name.toList) := by
    simp only [← Nat.not_lt, decide_not]
  rw [h]
  simp [Bool.not_or, Bool.and_assoc]

/-- C3: the protocol get operation returns the Disabled error, for every
repository state, exactly when the enablement policy hides the name; the
NotFound error for an enabled name with no document is a different error, and
an enabled name with a document yields the substituted content. -/
theorem Pmx.c3_get_prompt :
    (∀ dp name args, Pmx.is_prompt_enabled dp name = false →
        ∀ fs, Pmx.get_prompt dp fs name args = .error Pmx.disabledError) ∧
    (∀ dp fs name args, Pmx.is_prompt_enabled dp name = true → fs name = none →
        Pmx.get_prompt dp fs name args
          = .error (Pmx.notFoundError (Pmx.profileNotFoundMsg name))) ∧
    (∀ dp fs name args content,
        Pmx.is_prompt_enabled dp name = true → fs name = some content →
        Pmx.get_prompt dp fs name args = .ok (Pmx.substitute_arguments content args)) ∧
    (∀ e, Pmx.disabledError ≠ Pmx.notFoundError e) ∧
    (∀ name, Pmx.is_prompt_enabled (.bool true) name = false) ∧
    (∀ name, Pmx.is_prompt_enabled (.bool false) name = true) ∧
    (∀ L name, Pmx.is_prompt_enabled (.list L) name = !decide (name ∈ L)) := by
  refine ⟨?_, ?_, ?_, Pmx.disabledError_ne_notFoundError, fun _ => rfl, fun _ => rfl,
    fun _ _ => rfl⟩
  · intro dp name args hdis fs
    unfold Pmx.get_prompt
    rw [hdis]
    rfl
  · intro dp fs name args hen hnone
    unfold Pmx.get_prompt
    rw [hen, hnone]
    rfl
  · intro dp fs name args content hen hsome
    unfold Pmx.get_prompt
    rw [hen, hsome]
    rfl

/-- C3 witness: a concrete hidden prompt is rejected with the Disabled error
whatever the repository holds. -/
theorem Pmx.c3_get_prompt_witness :
    Pmx.get_prompt (.bool true) (fun _ => some "body") "p" none
      = .error Pmx.disabledError :=
  Pmx.c3_get_prompt.1 (.bool true) "p" none rfl (fun _ => some "body")

/-- C4: the listing is not what the claim states: with directory entries
enumerated as "b.md" then "a.md.md", list_repos returns ["b", "a"] (traversal
order, every trailing ".md" stripped), while the claim's reading (sorted by
relative path, a single ".md" stripped) would give ["a.md", "b"]. -/
theorem Pmx.c4_list_claim_counterexample :
    Pmx.list_repos Pmx.ex4 = ["b", "a"] ∧
    Pmx.claimListSpec Pmx.ex4 = ["a.md", "b"] ∧
    Pmx.list_repos Pmx.ex4 ≠ Pmx.claimListSpec Pmx.ex4 := by
  have h1 : Pmx.list_repos Pmx.ex4 = ["b", "a"] := by
    unfold Pmx.list_repos; rw [Pmx.recEntries_ex4]; decide
  have h2 : Pmx.claimListSpec Pmx.ex4 = ["a.md", "b"] := by
    unfold Pmx.claimListSpec; rw [Pmx.recEntries_ex4]; decide
  exact ⟨h1, h2, by rw [h1, h2]; decide⟩

/-- C4 (amended): list returns the logical names of exactly the files with
extension .md under the repo/ subtree, each name the '/'-joined relative path
with every trailing ".md" occurrence stripped, in depth-first traversal order
with each directory's entries in the order the filesystem yields them; an
empty repository yields the empty sequence, not an error. -/
theorem Pmx.c4_list_repos_md_names :
    (∀ repo, Pmx.list_repos repo
      = (Pmx.mdNamePaths repo).map (fun p => String.mk (Pmx.trimEndMd (Pmx.joinSlash p)))) ∧
    Pmx.list_repos [] = [] := by
  constructor
  · intro repo
    unfold Pmx.list_repos
    rw [Pmx.filter_recEntries]
  · unfold Pmx.list_repos
    simp [Pmx.recEntries]

/-- C6: extraction finds exactly the well-formed placeholders: the stated
examples evaluate as claimed, malformed near-misses contribute nothing, the
dedup keeps the first occurrence of each identifier in discovery order and
yields no duplicates, every extracted identifier is well-formed and occurs as
a placeholder substring, and every placeholder occurrence is extracted. -/
theorem Pmx.c6_extract_placeholders :
    Pmx.extractedNames "Connect to <{{HOST}}> on <{{PORT}}>" = ["HOST", "PORT"] ∧
    Pmx.extractedNames "<{URL}>" = [] ∧
    Pmx.extractedNames "{{URL}}" = [] ∧
    Pmx.extractedNames "<URL>" = [] ∧
    Pmx.extractedNames "Use <{{URL}}> to access <{{URL}}> again." = ["URL"] ∧
    (∀ l : List Char,
        Pmx.dedupAux [] (Pmx.extractIds l) = Pmx.firstOccurrences (Pmx.extractIds l)) ∧
    (∀ l : List Char, (Pmx.dedupAux [] (Pmx.extractIds l)).Nodup) ∧
    (∀ l : List Char, ∀ id ∈ Pmx.extractIds l,
        Pmx.validIdent id = true ∧ ∃ s t, l = s ++ Pmx.placeholderPat id ++ t) ∧
    (∀ l s t id : List Char, Pmx.validIdent id = true →
        l = s ++ Pmx.placeholderPat id ++ t →
        id ∈ Pmx.extractIds l ∧ String.mk id ∈ Pmx.extractedNames (String.mk l)) := by
  refine ⟨by decide, by decide, by decide, by decide, by decide,
    fun l => Pmx.dedupAux_eq_firstOccurrences (Pmx.extractIds l), ?_,
    Pmx.extractIds_sound, ?_⟩
  · intro l
    exact Pmx.dedupAux_nodup _ _
  · intro l s t id hv heq
    have hmem := Pmx.extractIds_complete l s t id hv heq
    have hded := Pmx.mem_dedupAux_of_mem _ [] id hmem (by simp)
    exact ⟨hmem, Pmx.mem_extractedNames hded⟩

/-- C6 witness: the placeholder occurrence in a concrete content is found. -/
theorem Pmx.c6_extract_witness :
    "X".toList ∈ Pmx.extractIds "A <{{X}}> B".toList ∧
    String.mk "X".toList ∈ Pmx.extractedNames (String.mk "A <{{X}}> B".toList) :=
  Pmx.c6_extract_placeholders.2.2.2.2.2.2.2.2
    "A <{{X}}> B".toList "A ".toList " B".toList "X".toList (by decide) (by decide)

/-- C7: substitution leaves content unchanged under absent or empty bindings,
replaces a bound placeholder with the string value verbatim (or the rendered
value with surrounding quotes stripped), keeps unbound placeholders in place,
and is single-pass (substituted text is not rescanned). -/
theorem Pmx.c7_substitute :
    (∀ content, Pmx.substitute_arguments content none = content) ∧
    (∀ content, Pmx.substitute_arguments content (some []) = content) ∧
    (∀ args id rest v, Pmx.validIdent id = true →
        Pmx.lookupArg args (String.mk id) = some (.str v) →
        Pmx.substChars args (Pmx.placeholderPat id ++ rest)
          = v.toList ++ Pmx.substChars args rest) ∧
    (∀ args id rest t, Pmx.validIdent id = true →
        Pmx.lookupArg args (String.mk id) = some (.other t) →
        Pmx.substChars args (Pmx.placeholderPat id ++ rest)
          = Pmx.trimQuotes t.toList ++ Pmx.substChars args rest) ∧
    (∀ args id rest, Pmx.validIdent id = true →
        Pmx.lookupArg args (String.mk id) = none →
        Pmx.substChars args (Pmx.placeholderPat id ++ rest)
          = Pmx.placeholderPat id ++ Pmx.substChars args rest) ∧
    Pmx.substitute_arguments "Connect to <{{HOST}}> on port <{{PORT}}>"
      (some [("HOST", .str "localhost"), ("PORT", .other "8080")])
      = "Connect to localhost on port 8080" ∧
    Pmx.substitute_arguments "Use <{{MISSING}}> value." (some [])
      = "Use <{{MISSING}}> value." ∧
    Pmx.substitute_arguments "<{{X}}>"
      (some [("X", .str "<{{Y}}>"), ("Y", .str "z")]) = "<{{Y}}>" ∧
    Pmx.substitute_arguments "v: <{{V}}>" (some [("V", .other "\"quoted\"")])
      = "v: quoted" := by
  refine ⟨Pmx.substitute_arguments_none, Pmx.substitute_arguments_empty,
    ?_, ?_, ?_, by decide, by decide, by decide, by decide⟩
  · intro args id rest v hv hl
    rw [Pmx.substChars_step args id rest hv]
    unfold Pmx.replacementFor
    rw [hl]
  · intro args id rest t hv hl
    rw [Pmx.substChars_step args id rest hv]
    unfold Pmx.replacementFor
    rw [hl]
  · intro args id rest hv hl
    rw [Pmx.substChars_step args id rest hv]
    unfold Pmx.replacementFor
    rw [hl]

/-- C7 witness: a concrete bound placeholder is replaced verbatim. -/
theorem Pmx.c7_substitute_witness :
    Pmx.substChars [("K", Pmx.JValue.str "val")]
        (Pmx.placeholderPat "K".toList ++ " z".toList)
      = "val".toList ++ Pmx.substChars [("K", Pmx.JValue.str "val")] " z".toList :=
  Pmx.c7_substitute.2.2.1 [("K", Pmx.JValue.str "val")] "K".toList " z".toList "val"
    (by decide) (by decide)

/-- C8: the listing names exactly the enabled profiles in order, attaches the
description and the best-effort argument spec (placeholders of readable
content, each required; none when unreadable or when there are no
placeholders), and the enablement truth table holds. -/
theorem Pmx.c8_list_prompts :
    (∀ dp profiles fs, (Pmx.list_prompts dp profiles fs).map (fun pr => pr.name)
        = profiles.filter (fun p => Pmx.is_prompt_enabled dp p)) ∧
    (∀ dp profiles fs name, name ∈ profiles → Pmx.is_prompt_enabled dp name = true →
        Pmx.promptFor fs name ∈ Pmx.list_prompts dp profiles fs) ∧
    (∀ dp profiles fs, ∀ pr ∈ Pmx.list_prompts dp profiles fs,
        Pmx.is_prompt_enabled dp pr.name = true ∧
        pr.description = some ("System prompt: " ++ pr.name)) ∧
    (∀ fs name, fs name = none → (Pmx.promptFor fs name).arguments = none) ∧
    (∀ fs name content, fs name = some content →
        (Pmx.promptFor fs name).arguments
          = (if (Pmx.extract_arguments_from_content content).isEmpty then none
             else some (Pmx.extract_arguments_from_content content))) ∧
    (∀ content, ∀ arg ∈ Pmx.extract_arguments_from_content content,
        arg.required = some true) ∧
    (∀ profiles fs, Pmx.list_prompts (.bool true) profiles fs = []) ∧
    (∀ profiles fs, (Pmx.list_prompts (.bool false) profiles fs).map (fun pr => pr.name)
        = profiles) ∧
    (∀ L profiles fs, (Pmx.list_prompts (.list L) profiles fs).map (fun pr => pr.name)
        = profiles.filter (fun n => !decide (n ∈ L))) := by
  have hnames : ∀ dp profiles fs, (Pmx.list_prompts dp profiles fs).map (fun pr => pr.name)
      = profiles.filter (fun p => Pmx.is_prompt_enabled dp p) := by
    intro dp profiles fs
    unfold Pmx.list_prompts
    rw [List.map_map]
    have : (fun pr => Pmx.Prompt.name pr) ∘ Pmx.promptFor fs = fun p => p := rfl
    rw [this, List.map_id']
  refine ⟨hnames, ?_, ?_, fun fs name h => by simp [Pmx.promptFor, h],
    fun fs name content h => by
      simp [Pmx.promptFor, h], fun content arg harg =>
      (Pmx.mem_extract_required content arg harg).1, ?_, ?_, ?_⟩
  · intro dp profiles fs name hmem hen
    unfold Pmx.list_prompts
    exact List.mem_map_of_mem _ (List.mem_filter.mpr ⟨hmem, hen⟩)
  · intro dp profiles fs pr hpr
    unfold Pmx.list_prompts at hpr
    obtain ⟨p, hp, rfl⟩ := List.mem_map.mp hpr
    exact ⟨(List.mem_filter.mp hp).2, rfl⟩
  · intro profiles fs
    unfold Pmx.list_prompts
    have : profiles.filter (fun p => Pmx.is_prompt_enabled (.bool true) p) = [] := by
      simp [Pmx.is_prompt_enabled]
    rw [this]
    rfl
  · intro profiles fs
    rw [hnames]
    simp [Pmx.is_prompt_enabled]
  · intro L profiles fs
    rw [hnames]
    rfl

/-- C8 witness: a profile outside the disabled list is listed even though its
content is unreadable. -/
theorem Pmx.c8_list_prompts_witness :
    Pmx.promptFor (fun _ => none) "a"
      ∈ Pmx.list_prompts (.list ["b"]) ["a", "b"] (fun _ => none) :=
  Pmx.c8_list_prompts.2.1 (.list ["b"]) ["a", "b"] (fun _ => none) "a"
    (by decide) (by decide)

/-- C5: create on an existing name fails with AlreadyExists and leaves the
store unchanged — indeed every non-created outcome leaves it unchanged — and
on a fresh valid name with real content it writes verbatim, after which a read
returns exactly that content. -/
theorem Pmx.c5_create_no_overwrite :
    (∀ st name content, Pmx.profile_exists st name = true →
        Pmx.cli_create st name content = (st, .errAlreadyExists)) ∧
    (∀ st name content outcome st',
        Pmx.cli_create st name content = (st', outcome) →
        outcome ≠ .created → st' = st) ∧
    (∀ st name content, Pmx.profile_exists st name = false →
        Pmx.validate_profile_name name = true →
        Pmx.is_effectively_empty name content = false →
        Pmx.cli_create st name content
          = (Pmx.create_profile st name content, .created) ∧
        Pmx.get_profile_content (Pmx.create_profile st name content) name
          = some content) := by
  refine ⟨?_, ?_, ?_⟩
  · intro st name content h
    simp [Pmx.cli_create, h]
  · intro st name content outcome st' h hout
    unfold Pmx.cli_create at h
    split_ifs at h with h1 h2 h3
    · exact (Prod.mk.injEq _ _ _ _ ▸ h).1.symm
    · exact (Prod.mk.injEq _ _ _ _ ▸ h).1.symm
    · exact (Prod.mk.injEq _ _ _ _ ▸ h).1.symm
    · exact absurd ((Prod.mk.injEq _ _ _ _ ▸ h).2.symm) hout
  · intro st name content h1 h2 h3
    constructor
    · simp [Pmx.cli_create, h1, h2, h3]
    · simp [Pmx.get_profile_content, Pmx.create_profile]

/-- C5 witness: creating over the existing profile "a" fails with
AlreadyExists and keeps the store; a fresh create round-trips. -/
theorem Pmx.c5_create_no_overwrite_witness :
    Pmx.cli_create [("a", "old")] "a" "new"
      = ([("a", "old")], .errAlreadyExists) ∧
    Pmx.cli_create [] "b" "real content"
      = (Pmx.create_profile [] "b" "real content", .created) ∧
    Pmx.get_profile_content (Pmx.create_profile [] "b" "real content") "b"
      = some "real content" :=
  ⟨Pmx.c5_create_no_overwrite.1 [("a", "old")] "a" "new" (by decide),
   (Pmx.c5_create_no_overwrite.2.2 [] "b" "real content"
     (by decide) (by decide) (by decide)).1,
   (Pmx.c5_create_no_overwrite.2.2 [] "b" "real content"
     (by decide) (by decide) (by decide)).2⟩

/-- C9: decoding tolerates an absent mcp group and absent tri-state fields,
defaulting each to Bool(false); a missing config file and a syntactically
malformed document (or a type-malformed mcp value) are hard errors. -/
theorem Pmx.c9_config_load_defaults :
    (∀ kvs ag av, Pmx.lookupToml kvs "agents" = some av →
        Pmx.decodeAgents av = .ok ag → Pmx.lookupToml kvs "mcp" = none →
        Pmx.decodeConfig (.table kvs) = .ok ⟨ag, Pmx.defaultMcp⟩) ∧
    (∀ kvs, Pmx.lookupToml kvs "disable_prompts" = none →
        Pmx.lookupToml kvs "disable_tools" = none →
        Pmx.decodeMcp (.table kvs) = .ok Pmx.defaultMcp) ∧
    (∀ kvs d v, Pmx.lookupToml kvs "disable_prompts" = none →
        Pmx.lookupToml kvs "disable_tools" = some v →
        Pmx.decodeDisable v = .ok d →
        Pmx.decodeMcp (.table kvs) = .ok ⟨.bool false, d⟩) ∧
    (∀ kvs d v, Pmx.lookupToml kvs "disable_prompts" = some v →
        Pmx.lookupToml kvs "disable_tools" = none →
        Pmx.decodeDisable v = .ok d →
        Pmx.decodeMcp (.table kvs) = .ok ⟨d, .bool false⟩) ∧
    Pmx.decodeConfig (.table [("agents", Pmx.exAgents)])
      = .ok ⟨⟨false, false⟩, Pmx.defaultMcp⟩ ∧
    Pmx.decodeConfig (.table [("agents", Pmx.exAgents), ("mcp", .int 3)])
      = .error "mcp must be a table" ∧
    Pmx.decodeDisable (.int 3)
      = .error "data did not match any variant of untagged enum DisableOption" ∧
    Pmx.decodeDisable (.bool true) = .ok (.bool true) ∧
    Pmx.decodeDisable (.arr [.str "a"]) = .ok (.list ["a"]) ∧
    Pmx.configLoad none = .error "Config file does not exist" ∧
    (∀ msg, Pmx.configLoad (some (.error msg))
      = .error ("Failed to parse config file: " ++ msg)) := by
  refine ⟨?_, ?_, ?_, ?_, by rfl, by rfl, by rfl, by rfl, by rfl, by rfl,
    fun msg => rfl⟩
  · intro kvs ag av h1 h2 h3
    simp [Pmx.decodeConfig, h1, h2, h3]
  · intro kvs h1 h2
    simp [Pmx.decodeMcp, h1, h2, Pmx.defaultMcp]
  · intro kvs d v h1 h2 h3
    simp [Pmx.decodeMcp, h1, h2, h3]
  · intro kvs d v h1 h2 h3
    simp [Pmx.decodeMcp, h1, h2, h3]

/-- C9 witness: a config whose table has only the agents group decodes with
the fully-enabled mcp defaults. -/
theorem Pmx.c9_config_load_witness :
    Pmx.decodeConfig (.table [("agents", Pmx.exAgents)])
      = .ok ⟨⟨false, false⟩, Pmx.defaultMcp⟩ :=
  Pmx.c9_config_load_defaults.1 [("agents", Pmx.exAgents)] ⟨false, false⟩
    Pmx.exAgents rfl rfl rfl

/-- C10: when the editor's content is effectively empty in the claim's sense
(empty after trimming, the initial template, or only blank / heading / comment
lines), create succeeds with no state change, so no profile comes into
existence; a headings-and-comment document is a concrete instance. -/
theorem Pmx.c10_empty_content_create_ok :
    (∀ st name content, Pmx.profile_exists st name = false →
        Pmx.validate_profile_name name = true →
        Pmx.claimEffectivelyEmpty name content = true →
        Pmx.cli_create st name content = (st, .cancelled)) ∧
    Pmx.claimEffectivelyEmpty "notes" "# Title\n\n## Section\n<!-- todo -->" = true ∧
    Pmx.cli_create [] "notes" "# Title\n\n## Section\n<!-- todo -->"
      = ([], .cancelled) := by
  refine ⟨?_, by decide, by decide⟩
  intro st name content h1 h2 h3
  have hemp := Pmx.claimEmpty_implies_empty name content h3
  simp [Pmx.cli_create, h1, h2, hemp]

/-- C10 witness: a heading-only document cancels creation with the store
untouched. -/
theorem Pmx.c10_empty_content_witness :
    Pmx.cli_create [] "doc" "# Heading only" = ([], .cancelled) :=
  Pmx.c10_empty_content_create_ok.1 [] "doc" "# Heading only"
    (by decide) (by decide) (by decide)
